import Mathlib

/-!
Verification development for the dynamic-form frontend (`dynamic-form-fe`).

This file gives a shallow embedding, in Lean 4, of the schema compiler and
conditional-field expansion engine of the repository:

* `src/unnamed/part_000` — the local-name normalizer `generateFieldName`;
* `src/pages/forms/[id].js` — `getAllFields`, `generateValidationSchema`,
  `getInitialValues`, and the answer-serialization part of `handleSubmit`
  (including its qualified-name reverse mapping);
* `src/components/DraggableFieldList.js` — `generateStableId`,
  `handleDragEnd`, and the `fieldsWithStableIds` preprocessing.

JavaScript strings are modelled as Lean `String` with explicit helper
functions matching the JS operations used by the source (`startsWith`,
`replace` with a string pattern, template-literal concatenation, truthiness
of strings and of `undefined`).  JS objects used as string-keyed maps are
modelled as association lists where assignment overwrites the first entry
with the same key.  The external libraries the source calls into (Yup
validation chains, `RegExp`) are modelled from their documented behaviour;
each such model is marked by a comment.
-/

set_option autoImplicit false

namespace DynForm

/-! ## JavaScript string primitives -/

/-- JS `s.startsWith(pre)`: byte-wise prefix test, modelled on the
character lists underlying both strings. -/
def jsStartsWith (s pre : String) : Bool :=
  pre.data.isPrefixOf s.data

/-- Remove the first occurrence of `pat` from `s` (JS
`s.replace(pat, "")` with a plain-string pattern replaces only the
first occurrence). -/
def removeFirstChars (pat : List Char) : List Char → List Char
  | [] => []
  | c :: cs =>
    if pat.isPrefixOf (c :: cs) then (c :: cs).drop pat.length
    else c :: removeFirstChars pat cs

/-- String wrapper for `removeFirstChars`. -/
def jsReplaceFirst (s pat : String) : String :=
  ⟨removeFirstChars pat.data s.data⟩

/-- JS string truthiness for an optional string-valued property:
`undefined` and the empty string are falsy. -/
def truthy : Option String → Bool
  | some s => decide (s ≠ "")
  | none => false

/-- JS `s.trim()`; the source only ever trims ASCII whitespace. -/
def jsTrim (s : String) : String :=
  ⟨(s.data.dropWhile Char.isWhitespace).reverse.dropWhile Char.isWhitespace |>.reverse⟩

/-! ## The local-name normalizer (`generateFieldName`, src/unnamed/part_000 lines 3-13) -/

/-- ASCII lower-casing, the fragment of JS `toLowerCase` exercised by the
local names this app produces. -/
def jsToLower (c : Char) : Char :=
  if 'A' ≤ c ∧ c ≤ 'Z' then Char.ofNat (c.toNat + 32) else c

/-- Character class `[a-z0-9_]` of the normalizer's keep-regex. -/
def isAllowedNameChar (c : Char) : Bool :=
  ('a' ≤ c && c ≤ 'z') || ('0' ≤ c && c ≤ '9') || c = '_'

/-- `replace(/_+/g, '_')`: collapse each run of underscores to a single
underscore. -/
def collapseUnderscores : List Char → List Char
  | [] => []
  | [c] => [c]
  | c :: d :: rest =>
    if c = '_' ∧ d = '_' then collapseUnderscores (d :: rest)
    else c :: collapseUnderscores (d :: rest)

/-- `replace(/^_+|_+$/g, '')`: strip leading and trailing underscores. -/
def trimUnderscores (l : List Char) : List Char :=
  ((l.dropWhile (· = '_')).reverse.dropWhile (· = '_')).reverse

/-- `/^[a-z]/.test(name)`. -/
def startsWithLowerAlpha : List Char → Bool
  | [] => false
  | c :: _ => 'a' ≤ c && c ≤ 'z'

/-- The local-name normalizer from `src/unnamed/part_000` lines 3-13:
lower-case, replace every character outside `[a-z0-9_]` by `_`, collapse
runs of `_`, strip `_` at the ends, prepend `field_` when the result does
not start with a letter, and default to `field` when everything vanished.
Returns `""` for a falsy (empty) label, as the JS does. -/
def generateFieldName (label : String) : String :=
  if label = "" then ""
  else
    let name := trimUnderscores (collapseUnderscores
      ((label.data.map jsToLower).map (fun c => if isAllowedNameChar c then c else '_')))
    let name := if name ≠ [] ∧ ¬ startsWithLowerAlpha name then
        'f' :: 'i' :: 'e' :: 'l' :: 'd' :: '_' :: name
      else name
    if name = [] then "field" else ⟨name⟩

/-- A valid local name is one the normalizer can produce and leaves fixed. -/
def validLocalName (s : String) : Prop :=
  generateFieldName s = s ∧ s ≠ ""

/-! ## The field data model

`FieldDefinition` as consumed by `src/pages/forms/[id].js`.  `type` is a
reserved word in Lean, so the source's `field.type` is embedded as `ftype`.
`conditionalFields` is a mapping from option value to the ordered list of
nested fields; the JS property may also be absent, but every consumer of
the property guards it with `field.conditionalFields &&` /
`?.` / `|| []`, so an absent mapping is observationally identical to an
empty one and is embedded as `[]`. -/

/-- The `validation` constraint bag.  `minLength`/`maxLength` apply to
text-like kinds, `min`/`max` to numbers, `regex` to text, `accept` to
files.  Numeric constraints authored by this app are integers. -/
structure Validation where
  minLength : Option Nat
  maxLength : Option Nat
  min : Option Int
  max : Option Int
  regex : Option String
  accept : Option String
deriving DecidableEq, Repr

/-- An empty validation bag (JS `validation: {}`). -/
def Validation.none0 : Validation :=
  { minLength := none, maxLength := none, min := none, max := none,
    regex := none, accept := none }

/-- One declared field.  Nested (conditional) fields are `Field`s again;
the runtime consumes only one level of nesting. -/
inductive Field where
  | mk (name : String) (label : String) (ftype : String) (required : Bool)
       (options : List String) (validation : Validation)
       (conditionalFields : List (String × List Field)) : Field

def Field.name : Field → String
  | .mk n _ _ _ _ _ _ => n

def Field.label : Field → String
  | .mk _ l _ _ _ _ _ => l

def Field.ftype : Field → String
  | .mk _ _ t _ _ _ _ => t

def Field.required : Field → Bool
  | .mk _ _ _ r _ _ _ => r

def Field.options : Field → List String
  | .mk _ _ _ _ o _ _ => o

def Field.validation : Field → Validation
  | .mk _ _ _ _ _ v _ => v

def Field.conditionalFields : Field → List (String × List Field)
  | .mk _ _ _ _ _ _ c => c

/-- `nestedFieldCopy.name = ...`: the same field with its `name` replaced
(the source writes the new name onto a spread copy `{...nestedField}`). -/
def Field.withName : Field → String → Field
  | .mk _ l t r o v c, n => .mk n l t r o v c

/-- Association-list lookup modelling JS object indexing `obj[k]`
(`undefined` when the key is missing). -/
def lookupStr (m : List (String × String)) (k : String) : Option String :=
  (m.find? (fun kv => decide (kv.1 = k))).map (·.2)

/-- Lookup of a conditional branch: `field.conditionalFields[k]`. -/
def branchLookup (m : List (String × List Field)) (k : String) : Option (List Field) :=
  (m.find? (fun kv => decide (kv.1 = k))).map (·.2)

/-! ## The field expander (`getAllFields`, src/pages/forms/[id].js lines 10-37) -/

/-- The qualified name of a nested field:
`` `${field.name}_${nestedField.name}` `` (line 29). -/
def qualifyName (parent local_ : String) : String :=
  parent ++ "_" ++ local_

/-- The conditional fields contributed by one top-level field under the
current selection state — the body of the `forEach` in `getAllFields`
(lines 13-33): when the field is selectable, its selected value is truthy
and names a branch, that branch's fields are emitted as renamed copies. -/
def activeNested (selectedValues : List (String × String)) (field : Field) : List Field :=
  if field.ftype = "radio" ∨ field.ftype = "select" then
    match lookupStr selectedValues field.name with
    | some selectedValue =>
      if selectedValue = "" then []
      else
        match branchLookup field.conditionalFields selectedValue with
        | some conditionalFields =>
          conditionalFields.map (fun nestedField =>
            nestedField.withName (qualifyName field.name nestedField.name))
        | none => []
    | none => []
  else []

/-- `getAllFields(fields, selectedValues)` (lines 10-37): start from a
copy of the top-level list and push every active branch's renamed copies
onto its end, walking the top-level fields in order. -/
def getAllFields (fields : List Field) (selectedValues : List (String × String)) : List Field :=
  fields.foldl (fun allFields field => allFields ++ activeNested selectedValues field) fields

/-! ## Model of `new RegExp(pattern)` and `regex.test(s)`

The rule synthesizer calls the host's `RegExp` constructor inside a
`try`/`catch` (lines 107-117): an invalid pattern throws and the pattern
constraint is skipped.  `RegExp` is external to the repository, so it is
modelled here by an executable parser for the regular-expression dialect
this application's authors can write (literals, `.`, classes, groups,
alternation, the `* + ? {m,n}` quantifiers with lazy `?`, and the common
escapes), rejecting the malformed inputs `RegExp` rejects (unterminated
group or class, nothing to repeat, trailing backslash, out-of-order
`{m,n}` or class range).  Anchors, word boundaries and backreferences are
accepted but approximated by the empty regex; no claim in this development
depends on match semantics, only on the accept/reject behaviour of
compilation. -/

inductive RegexAst where
  | emptyStr
  | anyChar
  | lit (c : Char)
  | cls (neg : Bool) (ranges : List (Char × Char))
  | seq (a b : RegexAst)
  | alt (a b : RegexAst)
  | star (a : RegexAst)
deriving Repr

/-- Character ranges of `\d`. -/
def digitRanges : List (Char × Char) := [('0', '9')]

/-- Character ranges of `\w`. -/
def wordRanges : List (Char × Char) := [('a', 'z'), ('A', 'Z'), ('0', '9'), ('_', '_')]

/-- Character ranges of `\s` (ASCII fragment). -/
def spaceRanges : List (Char × Char) :=
  [(' ', ' '), ('\t', '\t'), ('\n', '\n'), ('\r', '\r'), ('\x0b', '\x0c')]

/-- An escape `\c` outside a character class. -/
def escapeAst (c : Char) : RegexAst :=
  if c = 'd' then .cls false digitRanges
  else if c = 'D' then .cls true digitRanges
  else if c = 'w' then .cls false wordRanges
  else if c = 'W' then .cls true wordRanges
  else if c = 's' then .cls false spaceRanges
  else if c = 'S' then .cls true spaceRanges
  else if c = 'n' then .lit '\n'
  else if c = 't' then .lit '\t'
  else if c = 'r' then .lit '\r'
  else if c = 'b' ∨ c = 'B' ∨ ('1' ≤ c ∧ c ≤ '9') then .emptyStr
  else .lit c

/-- An escape `\c` inside a character class, as extra ranges. -/
def classEscapeRanges (c : Char) : List (Char × Char) :=
  if c = 'd' then digitRanges
  else if c = 'w' then wordRanges
  else if c = 's' then spaceRanges
  else if c = 'n' then [('\n', '\n')]
  else if c = 't' then [('\t', '\t')]
  else if c = 'r' then [('\r', '\r')]
  else [(c, c)]

/-- Decimal value of a digit list. -/
def digitsToNat (ds : List Char) : Nat :=
  ds.foldl (fun n c => 10 * n + (c.toNat - '0'.toNat)) 0

/-- Parse the body of a `{m}`, `{m,}` or `{m,n}` quantifier after the
opening brace; `none` when the braces are not quantifier syntax (JS then
treats the brace as a literal). -/
def parseBraceQuant (s : List Char) : Option (Nat × Option Nat × List Char) :=
  let ds := s.takeWhile Char.isDigit
  let r := s.dropWhile Char.isDigit
  if ds = [] then none
  else
    let m := digitsToNat ds
    match r with
    | '}' :: r2 => some (m, some m, r2)
    | ',' :: '}' :: r2 => some (m, none, r2)
    | ',' :: r2 =>
      let ds2 := r2.takeWhile Char.isDigit
      let r3 := r2.dropWhile Char.isDigit
      if ds2 = [] then none
      else
        match r3 with
        | '}' :: r4 => some (m, some (digitsToNat ds2), r4)
        | _ => none
    | _ => none

/-- Repeat a regex exactly `n` times. -/
def repExact (a : RegexAst) : Nat → RegexAst
  | 0 => .emptyStr
  | n + 1 => .seq a (repExact a n)

/-- Repeat a regex between `m` and `n` times (`n` counted beyond `m`). -/
def repUpTo (a : RegexAst) : Nat → RegexAst
  | 0 => .emptyStr
  | n + 1 => .alt .emptyStr (.seq a (repUpTo a n))

/-- Parse the items of a character class after `[` (and an optional `^`),
up to the closing `]`.  Rejects an unterminated class and an out-of-order
range, as `RegExp` does. -/
def parseClassItems (fuel : Nat) (s : List Char) : Option (List (Char × Char) × List Char) :=
  match fuel with
  | 0 => none
  | fuel + 1 =>
    match s with
    | [] => none
    | ']' :: r => some ([], r)
    | c0 :: rest =>
      let item : Option (Char × Bool × List Char) :=
        match c0, rest with
        | '\\', [] => none
        | '\\', e :: r2 =>
          match classEscapeRanges e with
          | [(a, b)] => if a = b then some (a, true, r2) else some (a, false, r2)
          | _ => some (e, false, r2)
        | c, _ => some (c, true, rest)
      match item with
      | none => none
      | some (c, isRangeEndpoint, r2) =>
        match r2 with
        | '-' :: ']' :: r3 =>
          -- trailing '-' is a literal
          (parseClassItems fuel (']' :: r3)).map (fun p => ((c, c) :: ('-', '-') :: p.1, p.2))
        | '-' :: d :: r3 =>
          if isRangeEndpoint ∧ d ≠ '\\' then
            if c ≤ d then
              (parseClassItems fuel r3).map (fun p => ((c, d) :: p.1, p.2))
            else none
          else
            (parseClassItems fuel ('-' :: d :: r3)).map (fun p => ((c, c) :: p.1, p.2))
        | _ =>
          (parseClassItems fuel r2).map (fun p => ((c, c) :: p.1, p.2))

/-- Attach a postfix quantifier (with optional lazy `?`) to a parsed atom. -/
def applyQuant (a : RegexAst) (rest : List Char) : RegexAst × List Char × Bool :=
  let lazyOpt : List Char → List Char
    | '?' :: r => r
    | r => r
  match rest with
  | '*' :: r => (.star a, lazyOpt r, true)
  | '+' :: r => (.seq a (.star a), lazyOpt r, true)
  | '?' :: r => (.alt .emptyStr a, lazyOpt r, true)
  | '{' :: r =>
    match parseBraceQuant r with
    | some (m, some n, r2) =>
      if m ≤ n then (.seq (repExact a m) (repUpTo a (n - m)), lazyOpt r2, true)
      else (a, rest, false)   -- out-of-order quantifier: marked invalid by caller
    | some (m, none, r2) => (.seq (repExact a m) (.star a), lazyOpt r2, true)
    | none => (a, rest, true) -- not quantifier syntax: brace stays for the next atom
  | _ => (a, rest, true)

mutual

/-- Parse an alternation `seq ('|' seq)*`. -/
def parseAlts (fuel : Nat) (s : List Char) : Option (RegexAst × List Char) :=
  match fuel with
  | 0 => none
  | fuel + 1 =>
    match parseSeq fuel s with
    | some (a, '|' :: rest) =>
      match parseAlts fuel rest with
      | some (b, rest2) => some (.alt a b, rest2)
      | none => none
    | other => other

/-- Parse a (possibly empty) concatenation of quantified atoms. -/
def parseSeq (fuel : Nat) (s : List Char) : Option (RegexAst × List Char) :=
  match fuel with
  | 0 => none
  | fuel + 1 =>
    match s with
    | [] => some (.emptyStr, [])
    | ')' :: _ => some (.emptyStr, s)
    | '|' :: _ => some (.emptyStr, s)
    | _ =>
      match parseAtom fuel s with
      | some (a, rest) =>
        match applyQuant a rest with
        | (a2, rest2, true) =>
          match parseSeq fuel rest2 with
          | some (b, rest3) => some (.seq a2 b, rest3)
          | none => none
        | (_, _, false) => none
      | none => none

/-- Parse one atom: group, class, `.`, escape, anchor, or a literal.
A quantifier with nothing before it, an unmatched delimiter and a
trailing backslash are rejected. -/
def parseAtom (fuel : Nat) (s : List Char) : Option (RegexAst × List Char) :=
  match fuel with
  | 0 => none
  | fuel + 1 =>
    match s with
    | [] => none
    | '(' :: rest =>
      let rest2 := match rest with
        | '?' :: ':' :: r => r
        | '?' :: '=' :: r => r
        | '?' :: '!' :: r => r
        | r => r
      match parseAlts fuel rest2 with
      | some (a, ')' :: r2) => some (a, r2)
      | _ => none
    | '[' :: '^' :: rest =>
      (parseClassItems fuel rest).map (fun p => (.cls true p.1, p.2))
    | '[' :: rest =>
      (parseClassItems fuel rest).map (fun p => (.cls false p.1, p.2))
    | '.' :: rest => some (.anyChar, rest)
    | '\\' :: [] => none
    | '\\' :: c :: rest => some (escapeAst c, rest)
    | '^' :: rest => some (.emptyStr, rest)
    | '$' :: rest => some (.emptyStr, rest)
    | '*' :: _ => none
    | '+' :: _ => none
    | '?' :: _ => none
    | ')' :: _ => none
    | c :: rest => some (.lit c, rest)

end

/-- Compile a pattern string; `none` models `new RegExp(p)` throwing. -/
def compileRegex (p : String) : Option RegexAst :=
  match parseAlts (4 * p.data.length + 8) p.data with
  | some (a, []) => some a
  | _ => none

/-- Whether `new RegExp(p)` succeeds. -/
def isValidJsRegex (p : String) : Bool :=
  (compileRegex p).isSome

/-- Whether the empty string is in the language. -/
def regexNullable : RegexAst → Bool
  | .emptyStr => true
  | .anyChar => false
  | .lit _ => false
  | .cls _ _ => false
  | .seq a b => regexNullable a && regexNullable b
  | .alt a b => regexNullable a || regexNullable b
  | .star _ => true

/-- Membership of a character in a class. -/
def clsContains (neg : Bool) (ranges : List (Char × Char)) (c : Char) : Bool :=
  neg ≠ ranges.any (fun r => r.1 ≤ c && c ≤ r.2)

/-- Brzozowski derivative of a regex by a character. -/
def regexDeriv : RegexAst → Char → RegexAst
  | .emptyStr, _ => .cls false []
  | .anyChar, _ => .emptyStr
  | .lit d, c => if d = c then .emptyStr else .cls false []
  | .cls neg ranges, c => if clsContains neg ranges c then .emptyStr else .cls false []
  | .seq a b, c =>
    if regexNullable a then .alt (.seq (regexDeriv a c) b) (regexDeriv b c)
    else .seq (regexDeriv a c) b
  | .alt a b, c => .alt (regexDeriv a c) (regexDeriv b c)
  | .star a, c => .seq (regexDeriv a c) (.star a)

/-- Whether some prefix of `cs` matches `r`. -/
def matchesSomePre (r : RegexAst) : List Char → Bool
  | [] => regexNullable r
  | c :: cs => regexNullable r || matchesSomePre (regexDeriv r c) cs

/-- Unanchored search, as JS `regex.test(s)`. -/
def regexSearchList (r : RegexAst) : List Char → Bool
  | [] => regexNullable r
  | c :: cs => matchesSomePre r (c :: cs) || regexSearchList r cs

/-- JS `new RegExp(p).test(s)` for a pattern known to compile. -/
def jsRegexTest (p s : String) : Bool :=
  match compileRegex p with
  | some r => regexSearchList r s.data
  | none => false

/-! ## Form values

The values Formik holds for this page: strings from text-like inputs,
booleans from checkboxes, `undefined` for cleared number and file inputs,
`null` for the initial file value, and `File` objects (kept as their
display name) for chosen files. -/

inductive JsValue where
  | vUndefined
  | vNull
  | vStr (s : String)
  | vBool (b : Bool)
  | vNum (n : Int)
  | vFile (filename : String)
deriving DecidableEq, Repr

/-- JS `String(v)` on the values above (`File` stringifies via its
`Object.prototype.toString`). -/
def jsToString : JsValue → String
  | .vUndefined => "undefined"
  | .vNull => "null"
  | .vStr s => s
  | .vBool b => if b then "true" else "false"
  | .vNum n => toString n
  | .vFile _ => "[object File]"

/-- Absence in the sense of Yup (`undefined` or `null` skip most tests). -/
def isAbsent : JsValue → Bool
  | .vUndefined => true
  | .vNull => true
  | _ => false

/-! ## The rule synthesizer (`generateValidationSchema`, src/pages/forms/[id].js lines 39-202)

Each Yup chain the `switch` builds is represented as first-order data:
which base chain it is, the field's label (interpolated into every
message), the `required` flag, and the constraint checks that were
attached.  `minLength`/`maxLength` are attached only when truthy
(`if (field.validation?.minLength)`), `min`/`max` whenever defined
(`!== undefined`), the pattern only when `new RegExp` succeeds
(the `try`/`catch` of lines 107-117), and the options list only when
non-empty (line 137). -/

structure Rule where
  base : String
  label : String
  required : Bool
  minLength : Option Nat
  maxLength : Option Nat
  numMin : Option Int
  numMax : Option Int
  pattern : Option String
  options : Option (List String)
deriving DecidableEq, Repr

/-- A rule with no constraint checks attached. -/
def Rule.bare (base label : String) (required : Bool) : Rule :=
  { base := base, label := label, required := required,
    minLength := none, maxLength := none, numMin := none, numMax := none,
    pattern := none, options := none }

/-- JS truthiness filter for `minLength`/`maxLength` (`0` is falsy). -/
def truthyNat : Option Nat → Option Nat
  | some n => if n = 0 then none else some n
  | none => none

/-- JS truthiness filter for the `regex` string (`""` is falsy). -/
def truthyStrOpt : Option String → Option String
  | some s => if s = "" then none else some s
  | none => none

/-- The Yup chain built for one field by the `switch` of lines 47-199,
as data.  The `default` arm (lines 170-171) silently produces a bare
`Yup.string()` — a plain-text rule — for any unrecognized kind. -/
def ruleForField (field : Field) : Rule :=
  match field.ftype with
  | "email" =>
    { Rule.bare "email" field.label field.required with
      minLength := truthyNat field.validation.minLength,
      maxLength := truthyNat field.validation.maxLength }
  | "number" =>
    { Rule.bare "number" field.label field.required with
      numMin := field.validation.min,
      numMax := field.validation.max }
  | "text" | "textarea" =>
    { Rule.bare "string" field.label field.required with
      minLength := truthyNat field.validation.minLength,
      maxLength := truthyNat field.validation.maxLength,
      pattern :=
        match truthyStrOpt field.validation.regex with
        | some r => if isValidJsRegex r then some r else none
        | none => none }
  | "date" => Rule.bare "date" field.label field.required
  | "select" | "radio" =>
    { Rule.bare "select" field.label field.required with
      options := if field.options = [] then none else some field.options }
  | "checkbox" => Rule.bare "boolean" field.label field.required
  | "file" => Rule.bare "file" field.label field.required
  | _ => Rule.bare "string" field.label field.required

/-- JS object assignment `schema[k] = v`: overwrite in place when the key
exists, append otherwise. -/
def objSetR (m : List (String × Rule)) (k : String) (v : Rule) : List (String × Rule) :=
  if m.any (fun kv => decide (kv.1 = k)) then
    m.map (fun kv => if kv.1 = k then (k, v) else kv)
  else m ++ [(k, v)]

/-- `generateValidationSchema(fields, selectedValues)` (lines 39-202):
one rule per effective field, keyed by qualified name. -/
def generateValidationSchema (fields : List Field)
    (selectedValues : List (String × String)) : List (String × Rule) :=
  (getAllFields fields selectedValues).foldl
    (fun schema f => objSetR schema f.name (ruleForField f)) []

/-! ## The validator

An executable model of running the synthesized Yup chain on one value,
per Yup's documented test semantics: `undefined`/`null` skip constraint
tests and fail only the presence test; a `string().required()` also
rejects `""`; `min`/`max`/`matches` on strings do run on `""`
(only `undefined`/`null` are absent, and the code never sets
`excludeEmptyString`, while Yup's built-in `email` test does exclude
`""`); `number()` and `date()` transform `""` to `undefined` before any
test (lines 68-77 and 121-126); `oneOf` skips only `undefined`;
`file` uses the custom test of lines 151-164.  When several tests fail
the model reports the presence failure first (abort-early). -/

inductive Outcome where
  | valid
  | invalid (msg : String)
deriving DecidableEq, Repr

/-- Run a list of checks in order; each is a passed-flag with its message. -/
def firstFailure : List (Bool × String) → Outcome
  | [] => .valid
  | (ok, msg) :: rest => if ok then firstFailure rest else .invalid msg

/-- JS `Number(s)` on the integral strings this app's number inputs
produce (optional sign, digits, optional surrounding whitespace);
other strings are modelled as NaN (`none`). -/
def jsParseNumber (s : String) : Option Int :=
  let t := (jsTrim s).data
  let core : Option (Bool × List Char) :=
    match t with
    | '-' :: ds => some (true, ds)
    | '+' :: ds => some (false, ds)
    | ds => some (false, ds)
  match core with
  | some (neg, ds) =>
    if ds ≠ [] ∧ ds.all Char.isDigit then
      some (if neg then -(digitsToNat ds : Int) else (digitsToNat ds : Int))
    else none
  | none => none

/-- Model of the JS `Date` parse for the `YYYY-MM-DD` strings a date
input produces; anything else is an invalid date. -/
def jsParseDate (s : String) : Option (Nat × Nat × Nat) :=
  match s.data with
  | [y1, y2, y3, y4, '-', m1, m2, '-', d1, d2] =>
    if [y1, y2, y3, y4, m1, m2, d1, d2].all Char.isDigit then
      let m := digitsToNat [m1, m2]
      let d := digitsToNat [d1, d2]
      if 1 ≤ m ∧ m ≤ 12 ∧ 1 ≤ d ∧ d ≤ 31 then
        some (digitsToNat [y1, y2, y3, y4], m, d)
      else none
    else none
  | _ => none

/-- Simplified model of Yup's email grammar (`rEmail`); the built-in
test also passes the empty string.  No claim depends on its exact
acceptance beyond that. -/
def jsEmailValid (s : String) : Bool :=
  match s.data.splitOn '@' with
  | [localPart, domain] =>
    localPart ≠ [] && domain ≠ [] &&
    domain.any (· = '.') && !s.data.any Char.isWhitespace
  | _ => false

/-- The string-based chains (`string`, `email`, `select`): cast the
value to a string, then run presence, email, `min`, `max`, `matches`
and `oneOf` in attachment order. -/
def validateStringChain (r : Rule) (v : JsValue) : Outcome :=
  match v with
  | .vUndefined => if r.required then .invalid (r.label ++ " is required") else .valid
  | .vNull => if r.required then .invalid (r.label ++ " is required") else .valid
  | w =>
    let s := jsToString w
    firstFailure (
      [(!(r.required && decide (s = "")), r.label ++ " is required")]
      ++ (if r.base = "email" then
            [(decide (s = "") || jsEmailValid s, r.label ++ " must be a valid email address")]
          else [])
      ++ (match r.minLength with
          | some m => [(decide (m ≤ s.data.length),
              r.label ++ " must be at least " ++ toString m ++ " characters")]
          | none => [])
      ++ (match r.maxLength with
          | some m => [(decide (s.data.length ≤ m),
              r.label ++ " must be at most " ++ toString m ++ " characters")]
          | none => [])
      ++ (match r.pattern with
          | some p => [(jsRegexTest p s, r.label ++ " format is invalid")]
          | none => [])
      ++ (match r.options with
          | some opts => [(decide (s ∈ opts),
              r.label ++ " must be one of the provided options")]
          | none => []))

/-- The `number` chain: the transform of lines 68-75 maps `""` and
`null` to `undefined` and keeps non-numeric originals (type error),
then `min`/`max` run on present numbers and `required` rejects absence. -/
def validateNumberChain (r : Rule) (v : JsValue) : Outcome :=
  let transformed : Option (Option Int) :=
    match v with
    | .vUndefined => some none
    | .vNull => some none
    | .vStr s => if s = "" then some none else
        match jsParseNumber s with
        | some n => some (some n)
        | none => none
    | .vNum n => some (some n)
    | .vBool b => some (some (if b then 1 else 0))
    | .vFile _ => none
  match transformed with
  | none => .invalid (r.label ++ " must be a valid number")
  | some none => if r.required then .invalid (r.label ++ " is required") else .valid
  | some (some n) =>
    firstFailure (
      (match r.numMin with
       | some m => [(decide (m ≤ n), r.label ++ " must be at least " ++ toString m)]
       | none => [])
      ++ (match r.numMax with
          | some m => [(decide (n ≤ m), r.label ++ " must be at most " ++ toString m)]
          | none => []))

/-- The `date` chain: the transform of lines 122-124 maps a blank
original to `undefined`; a string that is not a date is a type error. -/
def validateDateChain (r : Rule) (v : JsValue) : Outcome :=
  let transformed : Option (Option (Nat × Nat × Nat)) :=
    match v with
    | .vUndefined => some none
    | .vNull => some none
    | .vStr s => if jsTrim s = "" then some none else
        match jsParseDate s with
        | some d => some (some d)
        | none => none
    | _ => none
  match transformed with
  | none => .invalid (r.label ++ " must be a valid date")
  | some none => if r.required then .invalid (r.label ++ " is required") else .valid
  | some (some _) => .valid

/-- The `boolean` chain for checkboxes: `required` becomes
`oneOf([true])` (line 177), which skips `undefined`. -/
def validateBooleanChain (r : Rule) (v : JsValue) : Outcome :=
  match v with
  | .vUndefined => .valid
  | .vBool b =>
    if r.required ∧ b = false then .invalid (r.label ++ " is required") else .valid
  | .vStr s =>
    if s = "true" then
      .valid
    else if s = "false" then
      if r.required then .invalid (r.label ++ " is required") else .valid
    else .invalid (r.label ++ " must be a boolean")
  | _ => .invalid (r.label ++ " must be a boolean")

/-- The `file` chain: when required, the custom test of lines 151-164
(a `File` object or a non-blank string passes); otherwise
`mixed().nullable().notRequired()` with no tests. -/
def validateFileChain (r : Rule) (v : JsValue) : Outcome :=
  if r.required then
    match v with
    | .vFile _ => .valid
    | .vStr s => if jsTrim s ≠ "" then .valid else .invalid (r.label ++ " is required")
    | _ => .invalid (r.label ++ " is required")
  else .valid

/-- Validate one value against one synthesized rule. -/
def validateRule (r : Rule) (v : JsValue) : Outcome :=
  match r.base with
  | "number" => validateNumberChain r v
  | "date" => validateDateChain r v
  | "boolean" => validateBooleanChain r v
  | "file" => validateFileChain r v
  | _ => validateStringChain r v

/-! ## Initial values (`getInitialValues`, src/pages/forms/[id].js lines 205-221) -/

/-- The initial value the loop of lines 209-219 assigns for one field. -/
def initValueFor (field : Field) : JsValue :=
  if field.ftype = "checkbox" then .vBool false
  else if field.ftype = "number" then .vUndefined
  else if field.ftype = "file" then .vNull
  else .vStr ""

/-- JS object assignment for the initial-value map. -/
def objSetV (m : List (String × JsValue)) (k : String) (v : JsValue) : List (String × JsValue) :=
  if m.any (fun kv => decide (kv.1 = k)) then
    m.map (fun kv => if kv.1 = k then (k, v) else kv)
  else m ++ [(k, v)]

/-- Lookup in a value map (JS `values[k]`). -/
def lookupVal (m : List (String × JsValue)) (k : String) : Option JsValue :=
  (m.find? (fun kv => decide (kv.1 = k))).map (·.2)

/-- `getInitialValues(fields, selectedValues)` (lines 205-221). -/
def getInitialValues (fields : List Field)
    (selectedValues : List (String × String)) : List (String × JsValue) :=
  (getAllFields fields selectedValues).foldl
    (fun initialValues f => objSetV initialValues f.name (initValueFor f)) []

/-! ## The answer serializer (`handleSubmit`, src/pages/forms/[id].js lines 292-410)

`handleSubmit` walks `Object.entries(values)`, keeps an entry only when
its name belongs to the current effective field list (top-level name, or
qualified name whose stripped local part names a field of the parent's
currently selected branch), and pushes `{name, value}` answer records.
File payloads travel out of band and are not modelled; the `answers`
array is. -/

/-- The reverse mapping of lines 310-314: find the first top-level field
whose name followed by `_` prefixes the qualified name, and strip that
prefix (JS `replace` removes the first occurrence, which the guard pins
to position 0). -/
def unqualify (fields : List Field) (q : String) : Option (String × String) :=
  match fields.find? (fun pf => jsStartsWith q (pf.name ++ "_")) with
  | some pf => some (pf.name, jsReplaceFirst q (pf.name ++ "_"))
  | none => none

/-- `selectedValues[parentField.name] || values[parentField.name]`
(line 315-316), coerced to an object key the way JS indexing would. -/
def selectedKeyFor (selectedValues : List (String × String))
    (values : List (String × JsValue)) (pname : String) : String :=
  match lookupStr selectedValues pname with
  | some s => if s ≠ "" then s else
      match lookupVal values pname with
      | some v => jsToString v
      | none => "undefined"
  | none =>
    match lookupVal values pname with
    | some v => jsToString v
    | none => "undefined"

/-- `parentField.conditionalFields?.[selectedValue] || []` (lines 317-318). -/
def branchAtSelected (pf : Field) (selectedValues : List (String × String))
    (values : List (String × JsValue)) : List Field :=
  (branchLookup pf.conditionalFields (selectedKeyFor selectedValues values pf.name)).getD []

/-- The `fieldExists` membership test of lines 308-325. -/
def fieldExistsCheck (formFields allFields : List Field)
    (selectedValues : List (String × String)) (values : List (String × JsValue))
    (name : String) : Bool :=
  allFields.any (fun f =>
    if jsStartsWith name (f.name ++ "_") then
      match formFields.find? (fun pf => jsStartsWith name (pf.name ++ "_")) with
      | some parentField =>
        let nestedFieldName := jsReplaceFirst name (parentField.name ++ "_")
        (branchAtSelected parentField selectedValues values).any
          (fun nf => decide (nf.name = nestedFieldName))
      | none => decide (f.name = name)
    else decide (f.name = name))

/-- Stringification of one ordinary (non-file) value (lines 348-357).
The `instanceof Date` arm is unreachable for values produced by this
page's inputs and is not modelled. -/
def stringifyValue : JsValue → String
  | .vUndefined => ""
  | .vNull => ""
  | .vBool b => if b then "true" else "false"
  | v => jsToString v

/-- One iteration of the `Object.entries(values).forEach` loop of lines
306-361: keep the entry when `fieldExists`, with the file-field special
cases of lines 332-345. -/
def serializeStep (formFields allFields : List Field)
    (selectedValues : List (String × String)) (values : List (String × JsValue))
    (answers : List (String × String)) (nv : String × JsValue) :
    List (String × String) :=
  let name := nv.1
  let value := nv.2
  if fieldExistsCheck formFields allFields selectedValues values name then
    match allFields.find? (fun f =>
        decide (f.name = name) || jsStartsWith name (f.name ++ "_")) with
    | some field =>
      if field.ftype = "file" then
        match value with
        | .vFile fn => answers ++ [(name, fn)]
        | _ => if field.required then answers ++ [(name, "")] else answers
      else answers ++ [(name, stringifyValue value)]
    | none => answers ++ [(name, stringifyValue value)]
  else answers

/-- The `answers` array built by the loop of lines 306-361. -/
def serializeAnswers (formFields : List Field)
    (selectedValues : List (String × String))
    (values : List (String × JsValue)) : List (String × String) :=
  values.foldl
    (serializeStep formFields (getAllFields formFields selectedValues)
      selectedValues values) []

/-! ## The field identity manager (src/components/DraggableFieldList.js)

Editor-side fields carry a drag identity `_dragId`, a persisted storage
id `_id`, a `name` and an `order`.  Lean identifiers cannot start the way
the JS properties do, so `_dragId` is embedded as `dragId` and `_id` as
`storedId`; both are optional strings (`undefined` when absent), and the
JS truthiness checks treat `""` like absence. -/

structure EditorField where
  dragId : Option String
  storedId : Option String
  name : String
  order : Nat
deriving DecidableEq, Repr

/-- `generateStableId(field, index)` (lines 6-13): prefer the existing
drag id, then the storage id, then the name, then a positional
placeholder. -/
def generateStableId (field : EditorField) (index : Nat) : String :=
  if truthy field.dragId then field.dragId.getD ""
  else if truthy field.storedId then field.storedId.getD ""
  else if field.name ≠ "" then "field-" ++ field.name
  else "field-temp-" ++ toString index

/-- The `useMemo` preprocessing (lines 17-22): stamp every field with a
stable drag id. -/
def fieldsWithStableIds (fields : List EditorField) : List EditorField :=
  fields.enum.map (fun p => { p.2 with dragId := some (generateStableId p.2 p.1) })

/-- `splice(src, 1)` followed by `splice(dst, 0, moved)` (lines 29-31). -/
def reorderMove {α : Type} (l : List α) (src dst : Nat) : List α :=
  match l.get? src with
  | none => l
  | some moved =>
    let removed := l.take src ++ l.drop (src + 1)
    removed.take dst ++ moved :: removed.drop dst

/-- `handleDragEnd` (lines 24-44): reorder, then renumber `order` while
preserving each field's `_dragId` (regenerating only a falsy one). -/
def handleDragEnd (fields : List EditorField) (src dst : Nat) : List EditorField :=
  if src = dst then fields
  else
    (reorderMove fields src dst).enum.map (fun p =>
      { p.2 with
        order := p.1,
        dragId := if truthy p.2.dragId then p.2.dragId
                  else some (generateStableId p.2 p.1) })

/-! ## Heap model of the expansion (for the frame property)

To state that `getAllFields` never mutates its input, the same loop is
embedded once more with JS object identity made explicit: field objects
live in a heap addressed by allocation order, the schema holds
references, and the spread copy `{...nestedField}` of line 27 is an
allocation.  The pure `getAllFields` above is the observable behaviour;
this model witnesses what happens to the original objects. -/

/-- A field object on the heap; conditional branches hold references. -/
structure FieldObj where
  name : String
  label : String
  ftype : String
  required : Bool
  options : List String
  validation : Validation
  conditionalFields : List (String × List Nat)
deriving DecidableEq, Repr

/-- Heaps are allocation-ordered lists of objects. -/
abbrev Heap : Type := List FieldObj

/-- Dereference. -/
def heapGet (h : Heap) (r : Nat) : Option FieldObj :=
  List.get? h r

/-- Branch lookup on a heap object. -/
def branchLookupH (m : List (String × List Nat)) (k : String) : Option (List Nat) :=
  (m.find? (fun kv => decide (kv.1 = k))).map (·.2)

/-- The body of the `forEach` for one top-level reference: each emitted
nested field is a fresh allocation holding a renamed copy, never a write
through the original reference. -/
def expandOneH (selectedValues : List (String × String)) (st : Heap × List Nat)
    (r : Nat) : Heap × List Nat :=
  match heapGet st.1 r with
  | none => st
  | some fobj =>
    if fobj.ftype = "radio" ∨ fobj.ftype = "select" then
      match lookupStr selectedValues fobj.name with
      | some selectedValue =>
        if selectedValue = "" then st
        else
          match branchLookupH fobj.conditionalFields selectedValue with
          | some nrefs =>
            nrefs.foldl (fun st2 nr =>
              match heapGet st2.1 nr with
              | none => st2
              | some nobj =>
                (st2.1 ++ [{ nobj with name := qualifyName fobj.name nobj.name }],
                 st2.2 ++ [st2.1.length])) st
          | none => st
      | none => st
    else st

/-- `getAllFields` over the heap: start from the copied reference array
and push fresh copies for every active branch. -/
def getAllFieldsH (h : Heap) (tops : List Nat)
    (selectedValues : List (String × String)) : Heap × List Nat :=
  tops.foldl (expandOneH selectedValues) (h, tops)

/-! ## Helper lemmas -/

theorem foldl_append_flatMap {α β : Type} (g : α → List β) (l : List α) (init : List β) :
    l.foldl (fun acc x => acc ++ g x) init = init ++ l.flatMap g := by
  induction l generalizing init with
  | nil => simp
  | cons x xs ih => simp [List.foldl_cons, ih, List.flatMap_cons, List.append_assoc]

/-- The expander appends all active branches after the whole top-level
list, in the order of their parents. -/
theorem getAllFields_eq (fields : List Field) (sv : List (String × String)) :
    getAllFields fields sv = fields ++ fields.flatMap (activeNested sv) :=
  foldl_append_flatMap (activeNested sv) fields fields

/-- A field whose selected value names no branch contributes nothing. -/
theorem activeNested_eq_nil_of_no_branch (sv : List (String × String)) (f : Field)
    (h : branchLookup f.conditionalFields ((lookupStr sv f.name).getD "") = none) :
    activeNested sv f = [] := by
  unfold activeNested
  split
  · cases hv : lookupStr sv f.name with
    | none => simp
    | some v =>
      simp only [hv, Option.getD_some] at h
      by_cases hv0 : v = ""
      · simp [hv0]
      · simp [hv0, h]
  · rfl

/-! ## C2 — ordering of the effective field list -/

/-- A two-field schema whose first field has an active branch. -/
def exA : Field :=
  .mk "a" "A" "radio" true ["x"] Validation.none0
    [("x", [.mk "c" "C" "text" false [] Validation.none0 []])]

def exB : Field := .mk "b" "B" "text" false [] Validation.none0 []

/-- C2 counterexample: with schema `[a, b]` and branch `x` of `a` active,
the effective field list is `[a, b, a_c]` — the active child `a_c` is
emitted after the next top-level sibling `b`, not immediately after its
parent as the claim states (which would give `[a, a_c, b]`). -/
theorem c2_order_counterexample :
    (getAllFields [exA, exB] [("a", "x")]).map Field.name = ["a", "b", "a_c"]
    ∧ (getAllFields [exA, exB] [("a", "x")]).map Field.name ≠ ["a", "a_c", "b"] := by
  constructor
  · decide
  · decide

/-- C2 amended: the expander keeps every top-level field first, in
declared order, and appends each selectable field's active conditional
fields after the entire top-level list, grouped by parent in declared
order — not immediately after the parent. -/
theorem c2_expansion_order_amended (fields : List Field) (sv : List (String × String)) :
    getAllFields fields sv = fields ++ fields.flatMap (activeNested sv) :=
  getAllFields_eq fields sv

/-! ## C5 — conditional expansion scenario -/

/-- The "Contact Method" schema of the scenario. -/
def contactMethod : Field :=
  .mk "contact_method" "Contact Method" "radio" true ["Email", "Phone"]
    Validation.none0
    [("Email", [.mk "email_address" "Email Address" "email" true [] Validation.none0 []])]

/-- C5: selecting `Email` yields both `contact_method` and
`contact_method_email_address`; selecting `Phone` (no branch) yields only
`contact_method`; and in general a selected value that names no branch
produces no expansion. -/
theorem c5_conditional_expansion :
    (getAllFields [contactMethod] [("contact_method", "Email")]).map Field.name
      = ["contact_method", "contact_method_email_address"]
    ∧ (getAllFields [contactMethod] [("contact_method", "Phone")]).map Field.name
      = ["contact_method"]
    ∧ ∀ (fields : List Field) (sv : List (String × String)),
        (∀ f ∈ fields,
          branchLookup f.conditionalFields ((lookupStr sv f.name).getD "") = none) →
        getAllFields fields sv = fields := by
  refine ⟨by decide, by decide, ?_⟩
  intro fields sv h
  rw [getAllFields_eq]
  have : fields.flatMap (activeNested sv) = [] := by
    rw [List.flatMap_eq_nil_iff]
    intro f hf
    exact activeNested_eq_nil_of_no_branch sv f (h f hf)
  rw [this, List.append_nil]

/-- Witness for C5's universally quantified part at a concrete schema. -/
theorem c5_conditional_expansion_witness :
    getAllFields [contactMethod] [("contact_method", "Phone")] = [contactMethod] :=
  c5_conditional_expansion.2.2 [contactMethod] [("contact_method", "Phone")]
    (by intro f hf; fin_cases hf; rfl)

/-! ## C1 — the name qualifier and its reverse mapping -/

theorem removeFirst_of_append (pat rest : List Char) (h : pat ≠ []) :
    removeFirstChars pat (pat ++ rest) = rest := by
  cases pat with
  | nil => exact absurd rfl h
  | cons p pt =>
    show removeFirstChars (p :: pt) (p :: (pt ++ rest)) = rest
    have hpre : (p :: pt).isPrefixOf (p :: (pt ++ rest)) = true := by
      rw [List.isPrefixOf_iff_prefix]
      exact List.prefix_append (p :: pt) rest
    simp only [removeFirstChars, hpre, if_true]
    exact List.drop_left (p :: pt) rest

theorem qualifyName_data (parent local_ : String) :
    (qualifyName parent local_).data = (parent ++ "_").data ++ local_.data := by
  unfold qualifyName
  rw [String.data_append]

theorem sep_data_ne_nil (parent : String) : (parent ++ "_").data ≠ [] := by
  rw [String.data_append]
  exact List.append_ne_nil_of_right_ne_nil _ (by simp)

theorem jsStartsWith_qualify (parent local_ : String) :
    jsStartsWith (qualifyName parent local_) (parent ++ "_") = true := by
  unfold jsStartsWith
  rw [qualifyName_data, List.isPrefixOf_iff_prefix]
  exact List.prefix_append _ _

/-- Schema used to refute the round-trip: two valid top-level names where
one is a proper prefix of the other up to the separator. -/
def prefixClashA : Field := .mk "a" "A" "text" false [] Validation.none0 []

def prefixClashAB : Field :=
  .mk "a_b" "AB" "select" false ["o"] Validation.none0
    [("o", [.mk "c" "C" "text" false [] Validation.none0 []])]

/-- C1 counterexample: the separator `_` does occur inside valid local
names (the normalizer itself produces `first_name`), and the reverse
mapping is not a left inverse of the qualifier: with the valid top-level
names `a` and `a_b`, the qualified name built from parent `a_b` and local
name `c` is unqualified to `("a", "b_c")`, not `("a_b", "c")`. -/
theorem c1_round_trip_counterexample :
    validLocalName "first_name" ∧ '_' ∈ "first_name".data
    ∧ validLocalName "a" ∧ validLocalName "a_b" ∧ validLocalName "c"
    ∧ unqualify [prefixClashA, prefixClashAB] (qualifyName "a_b" "c") = some ("a", "b_c")
    ∧ unqualify [prefixClashA, prefixClashAB] (qualifyName "a_b" "c") ≠ some ("a_b", "c") := by
  refine ⟨⟨by decide, by decide⟩, by decide, ⟨by decide, by decide⟩,
    ⟨by decide, by decide⟩, ⟨by decide, by decide⟩, ?_, ?_⟩
  · rfl
  · decide

/-- C1 amended: the qualifier joins parent and local name with the fixed
separator `_`, but that separator can occur inside valid local names, so
the prefix-match-and-strip reverse mapping recovers `(parent, localName)`
only when no schema field other than the parent matches as a prefix: if
the parent is in the schema and every prefix-matching schema field carries
the parent's name, then `unqualify (qualify parent localName)` returns
exactly `(parent.name, localName)`. -/
theorem c1_round_trip_amended (fields : List Field) (p : Field) (localName : String)
    (hp : p ∈ fields)
    (huniq : ∀ f ∈ fields,
      jsStartsWith (qualifyName p.name localName) (f.name ++ "_") = true → f.name = p.name) :
    unqualify fields (qualifyName p.name localName) = some (p.name, localName) := by
  unfold unqualify
  have hex : (fields.find? (fun pf =>
      jsStartsWith (qualifyName p.name localName) (pf.name ++ "_"))).isSome := by
    rw [List.find?_isSome]
    exact ⟨p, hp, jsStartsWith_qualify p.name localName⟩
  obtain ⟨pf, hpf⟩ := Option.isSome_iff_exists.mp hex
  rw [hpf]
  show some (pf.name, jsReplaceFirst (qualifyName p.name localName) (pf.name ++ "_"))
    = some (p.name, localName)
  have hsat := List.find?_some hpf
  have hpfname : pf.name = p.name :=
    huniq pf (List.mem_of_find?_eq_some hpf) hsat
  have hstrip : jsReplaceFirst (qualifyName p.name localName) (pf.name ++ "_") = localName := by
    unfold jsReplaceFirst
    rw [hpfname, qualifyName_data,
      removeFirst_of_append _ _ (sep_data_ne_nil p.name)]
  rw [hstrip, hpfname]

/-- Witness for the amended round-trip at a concrete schema. -/
theorem c1_round_trip_amended_witness :
    unqualify [prefixClashA] (qualifyName "a" "x") = some ("a", "x") :=
  c1_round_trip_amended [prefixClashA] prefixClashA "x" (by simp)
    (by intro f hf; fin_cases hf; intro _; rfl)

/-! ## C4 — the optional-empty exemption -/

/-- An optional text field with a `minLength` constraint. -/
def bioOptional : Field :=
  .mk "bio" "Bio" "text" false []
    { Validation.none0 with minLength := some 5 } []

/-- The same field, required. -/
def bioRequired : Field :=
  .mk "bio" "Bio" "text" true []
    { Validation.none0 with minLength := some 5 } []

/-- C4 counterexample: an optional text field with `minLength = 5` and
value `""` does NOT validate as Valid — Yup's string `min` test treats
only `undefined`/`null` as absent, so it runs on the empty string and
fails. -/
theorem c4_optional_empty_counterexample :
    validateRule (ruleForField bioOptional) (.vStr "")
      = .invalid "Bio must be at least 5 characters"
    ∧ validateRule (ruleForField bioOptional) (.vStr "") ≠ .valid := by
  constructor
  · decide
  · decide

/-- C4 amended: only the presence check is waived for optional fields.
An absent (`undefined`) value passes every rule; for number and date
kinds the empty string is transformed to absent, so their constraint
checks are indeed skipped; but for text-like kinds constraint checks run
on the empty string — an optional text field with `minLength = 5` and
value `""` is Invalid — while an empty required text field is Invalid
with the required message. -/
theorem c4_optional_empty_amended :
    (∀ f : Field, f.required = false →
      validateRule (ruleForField f) .vUndefined = .valid)
    ∧ (∀ f : Field, f.required = false →
        (f.ftype = "number" ∨ f.ftype = "date") →
        validateRule (ruleForField f) (.vStr "") = .valid)
    ∧ validateRule (ruleForField bioOptional) (.vStr "")
        = .invalid "Bio must be at least 5 characters"
    ∧ (∀ f : Field, f.ftype = "text" → f.required = true →
        validateRule (ruleForField f) (.vStr "")
          = .invalid (f.label ++ " is required")) := by
  refine ⟨?_, ?_, by decide, ?_⟩
  · intro f hreq
    obtain ⟨n, lb, t, req, opts, val, cond⟩ := f
    simp only [Field.required] at hreq
    subst hreq
    unfold ruleForField
    split <;>
      simp [validateRule, validateStringChain, validateNumberChain,
        validateDateChain, validateBooleanChain, validateFileChain, Rule.bare,
        Field.required, Field.ftype, Field.label, Field.validation, Field.options]
  · intro f hreq hk
    obtain ⟨n, lb, t, req, opts, val, cond⟩ := f
    simp only [Field.required] at hreq
    simp only [Field.ftype] at hk
    subst hreq
    rcases hk with hk | hk <;> subst hk <;>
      simp [ruleForField, validateRule, validateNumberChain,
        validateDateChain, Rule.bare, jsTrim,
        Field.required, Field.ftype, Field.label, Field.validation, Field.options]
  · intro f hk hreq
    obtain ⟨n, lb, t, req, opts, val, cond⟩ := f
    simp only [Field.ftype] at hk
    simp only [Field.required] at hreq
    subst hk
    subst hreq
    simp [ruleForField, validateRule, validateStringChain, Rule.bare,
      Field.required, Field.ftype, Field.label, Field.validation, Field.options,
      firstFailure, jsToString]

/-- Witness for the amended C4 at concrete fields. -/
theorem c4_optional_empty_amended_witness :
    validateRule (ruleForField bioOptional) .vUndefined = .valid
    ∧ validateRule (ruleForField (.mk "age" "Age" "number" false []
        { Validation.none0 with min := some 18 } [])) (.vStr "") = .valid
    ∧ validateRule (ruleForField bioRequired) (.vStr "") = .invalid "Bio is required" :=
  ⟨c4_optional_empty_amended.1 bioOptional rfl,
   c4_optional_empty_amended.2.1 _ rfl (Or.inl rfl),
   c4_optional_empty_amended.2.2.2 bioRequired rfl rfl⟩

/-! ## C6 — behaviour on an unrecognized kind -/

/-- A field whose kind is outside the closed set. -/
def funkyField : Field := .mk "x" "X" "foobar" true [] Validation.none0 []

/-- C6 counterexample: rule synthesis does not fail fast on the unknown
kind `foobar` — the `default` arm of the switch silently produces the
bare plain-text rule `Yup.string()` (plus the generic required test), and
the whole schema is produced. -/
theorem c6_unknown_kind_counterexample :
    ruleForField funkyField = Rule.bare "string" "X" true
    ∧ generateValidationSchema [funkyField] [] = [("x", Rule.bare "string" "X" true)] := by
  constructor
  · decide
  · decide

/-- C6 amended: for every field whose kind is outside the closed set,
rule synthesis silently falls back to a default plain-text rule — a bare
string chain with no constraint checks — rather than raising. -/
theorem c6_unknown_kind_amended (f : Field)
    (h : f.ftype ∉ ["text", "textarea", "number", "email", "date",
      "checkbox", "radio", "select", "file"]) :
    ruleForField f = Rule.bare "string" f.label f.required := by
  obtain ⟨n, lb, t, req, opts, val, cond⟩ := f
  simp only [Field.ftype, List.mem_cons, List.mem_singleton] at h
  push_neg at h
  obtain ⟨h1, h2, h3, h4, h5, h6, h7, h8, h9⟩ := h
  unfold ruleForField
  split <;> simp_all [Field.ftype]

/-- Witness for the amended C6. -/
theorem c6_unknown_kind_amended_witness :
    ruleForField funkyField = Rule.bare "string" "X" true :=
  c6_unknown_kind_amended funkyField (by decide)

/-! ## C7 — invalid regex patterns are skipped locally -/

/-- The same field with its `regex` constraint removed. -/
def clearRegex : Field → Field
  | .mk n l t req o v c => .mk n l t req o { v with regex := none } c

theorem clearRegex_activeNested (sv : List (String × String)) (f : Field) :
    activeNested sv (clearRegex f) = activeNested sv f := by
  obtain ⟨n, lb, t, req, opts, val, cond⟩ := f
  rfl

theorem foldl_schema_congr :
    ∀ (l1 l2 : List Field),
      l1.map (fun x => (x.name, ruleForField x)) = l2.map (fun x => (x.name, ruleForField x)) →
      ∀ acc : List (String × Rule),
        l1.foldl (fun schema f => objSetR schema f.name (ruleForField f)) acc
          = l2.foldl (fun schema f => objSetR schema f.name (ruleForField f)) acc := by
  intro l1
  induction l1 with
  | nil =>
    intro l2 h acc
    cases l2 with
    | nil => rfl
    | cons y ys => simp at h
  | cons x xs ih =>
    intro l2 h acc
    cases l2 with
    | nil => simp at h
    | cons y ys =>
      simp only [List.map_cons, List.cons.injEq, Prod.mk.injEq] at h
      obtain ⟨⟨hn, hr⟩, htl⟩ := h
      simp only [List.foldl_cons, hn, hr]
      exact ih ys htl _

/-- C7: for a text or textarea field whose `regex` constraint is a
truthy string that `RegExp` rejects, the `try`/`catch` of lines 107-117
skips only the pattern check: the synthesized rule equals the rule of
the same field without the regex constraint (length checks intact), and
the whole synthesized schema — in any surrounding schema and selection
state — is the one obtained with that field's regex constraint dropped;
synthesis itself never fails. -/
theorem c7_invalid_regex_skip (f : Field) (r : String)
    (hk : f.ftype = "text" ∨ f.ftype = "textarea")
    (hr : f.validation.regex = some r) (hr0 : r ≠ "")
    (hbad : isValidJsRegex r = false) :
    ruleForField f = ruleForField (clearRegex f)
    ∧ ∀ (gs gs' : List Field) (sv : List (String × String)),
        generateValidationSchema (gs ++ f :: gs') sv
          = generateValidationSchema (gs ++ clearRegex f :: gs') sv := by
  have hrule : ruleForField f = ruleForField (clearRegex f) := by
    obtain ⟨n, lb, t, req, opts, val, cond⟩ := f
    simp only [Field.ftype] at hk
    simp only [Field.validation] at hr
    rcases hk with hk | hk <;> subst hk <;>
      simp [ruleForField, clearRegex, Field.ftype, Field.label, Field.required,
        Field.validation, Field.options, truthyStrOpt, hr, hr0, hbad]
  refine ⟨hrule, ?_⟩
  intro gs gs' sv
  unfold generateValidationSchema
  apply foldl_schema_congr
  rw [getAllFields_eq, getAllFields_eq]
  have hname : (clearRegex f).name = f.name := by
    obtain ⟨n, lb, t, req, opts, val, cond⟩ := f
    rfl
  have hflat : (gs ++ clearRegex f :: gs').flatMap (activeNested sv)
      = (gs ++ f :: gs').flatMap (activeNested sv) := by
    simp only [List.flatMap_append, List.flatMap_cons, clearRegex_activeNested]
  rw [hflat]
  simp only [List.map_append, List.map_cons, hname, hrule]

/-- A well-formed neighbour field, to witness that other fields' rules
are untouched. -/
def plainName : Field := .mk "nm" "Name" "text" true [] Validation.none0 []

/-- A text field carrying the invalid pattern `[` together with length
constraints. -/
def badRxField : Field :=
  .mk "t" "T" "text" false []
    { Validation.none0 with minLength := some 2, regex := some "[" } []

/-- Witness for C7 at a concrete schema: the pattern `[` does not
compile, the rule keeps its `minLength`, and the surrounding schema is
unaffected. -/
theorem c7_invalid_regex_skip_witness :
    ruleForField badRxField = ruleForField (clearRegex badRxField)
    ∧ generateValidationSchema [plainName, badRxField] []
        = generateValidationSchema [plainName, clearRegex badRxField] [] :=
  ⟨(c7_invalid_regex_skip badRxField "[" (Or.inl rfl) rfl (by decide) (by decide)).1,
   (c7_invalid_regex_skip badRxField "[" (Or.inl rfl) rfl (by decide) (by decide)).2
     [plainName] [] []⟩

/-! ## C9 — initial values per kind -/

theorem find?_map_set_self (m : List (String × JsValue)) (k : String) (v : JsValue)
    (h : (m.any fun kv => decide (kv.1 = k)) = true) :
    (m.map (fun kv => if kv.1 = k then (k, v) else kv)).find? (fun kv => decide (kv.1 = k))
      = some (k, v) := by
  induction m with
  | nil => simp at h
  | cons kv m ih =>
    simp only [List.any_cons, Bool.or_eq_true, decide_eq_true_eq] at h
    by_cases hk : kv.1 = k
    · simp only [List.map_cons, if_pos hk]
      exact List.find?_cons_of_pos _ (by simp)
    · simp only [List.map_cons, if_neg hk]
      rw [List.find?_cons_of_neg _ (by simp [hk])]
      exact ih (h.resolve_left hk)

theorem find?_append_new (m : List (String × JsValue)) (k : String) (v : JsValue)
    (h : (m.any fun kv => decide (kv.1 = k)) = false) :
    (m ++ [(k, v)]).find? (fun kv => decide (kv.1 = k)) = some (k, v) := by
  induction m with
  | nil => exact List.find?_cons_of_pos _ (by simp)
  | cons kv m ih =>
    rw [List.any_cons, Bool.or_eq_false_iff] at h
    rw [List.cons_append, List.find?_cons_of_neg _ (by simp [h.1])]
    exact ih h.2

theorem find?_map_set_ne (m : List (String × JsValue)) (k k' : String) (v : JsValue)
    (hne : k' ≠ k) :
    (m.map (fun kv => if kv.1 = k then (k, v) else kv)).find? (fun kv => decide (kv.1 = k'))
      = m.find? (fun kv => decide (kv.1 = k')) := by
  induction m with
  | nil => rfl
  | cons kv m ih =>
    by_cases hk : kv.1 = k
    · simp only [List.map_cons, if_pos hk]
      rw [List.find?_cons_of_neg _
          (by simp only [decide_eq_true_eq]; exact fun hc => hne hc.symm),
        List.find?_cons_of_neg _
          (by simp only [decide_eq_true_eq, hk]; exact fun hc => hne hc.symm)]
      exact ih
    · simp only [List.map_cons, if_neg hk]
      by_cases hk' : kv.1 = k'
      · rw [List.find?_cons_of_pos _ (by simp [hk']), List.find?_cons_of_pos _ (by simp [hk'])]
      · rw [List.find?_cons_of_neg _ (by simp [hk']), List.find?_cons_of_neg _ (by simp [hk'])]
        exact ih

theorem find?_append_keep (m : List (String × JsValue)) (k k' : String) (v : JsValue)
    (hne : k' ≠ k) :
    (m ++ [(k, v)]).find? (fun kv => decide (kv.1 = k'))
      = m.find? (fun kv => decide (kv.1 = k')) := by
  induction m with
  | nil =>
    rw [List.nil_append, List.find?_cons_of_neg _
      (by simp only [decide_eq_true_eq]; exact fun hc => hne hc.symm)]
  | cons kv m ih =>
    by_cases hk' : kv.1 = k'
    · rw [List.cons_append, List.find?_cons_of_pos _ (by simp [hk']),
        List.find?_cons_of_pos _ (by simp [hk'])]
    · rw [List.cons_append, List.find?_cons_of_neg _ (by simp [hk']),
        List.find?_cons_of_neg _ (by simp [hk'])]
      exact ih

theorem lookupVal_objSetV_self (m : List (String × JsValue)) (k : String) (v : JsValue) :
    lookupVal (objSetV m k v) k = some v := by
  unfold objSetV lookupVal
  by_cases h : (m.any fun kv => decide (kv.1 = k)) = true
  · rw [if_pos h, find?_map_set_self m k v h]
    rfl
  · rw [if_neg h, find?_append_new m k v (Bool.eq_false_iff.mpr h)]
    rfl

theorem lookupVal_objSetV_ne (m : List (String × JsValue)) (k k' : String) (v : JsValue)
    (h : k' ≠ k) : lookupVal (objSetV m k v) k' = lookupVal m k' := by
  unfold objSetV lookupVal
  by_cases hany : (m.any fun kv => decide (kv.1 = k)) = true
  · rw [if_pos hany, find?_map_set_ne m k k' v h]
  · rw [if_neg hany, find?_append_keep m k k' v h]

theorem fold_objSetV_preserves (iv : Field → JsValue) (k : String) :
    ∀ (l : List Field), (∀ g ∈ l, g.name ≠ k) →
    ∀ acc, lookupVal (l.foldl (fun m g => objSetV m g.name (iv g)) acc) k = lookupVal acc k := by
  intro l
  induction l with
  | nil => intro _ acc; rfl
  | cons x xs ih =>
    intro h acc
    simp only [List.foldl_cons]
    rw [ih (fun g hg => h g (List.mem_cons_of_mem x hg)) _,
      lookupVal_objSetV_ne _ _ _ _ (fun hc => h x (List.mem_cons_self x xs) hc.symm)]

theorem fold_objSetV_lookup (iv : Field → JsValue) :
    ∀ (l : List Field), (l.map Field.name).Nodup →
    ∀ f ∈ l, ∀ acc,
      lookupVal (l.foldl (fun m g => objSetV m g.name (iv g)) acc) f.name = some (iv f) := by
  intro l
  induction l with
  | nil => intro _ f hf; exact absurd hf (List.not_mem_nil f)
  | cons x xs ih =>
    intro hnd f hf acc
    simp only [List.map_cons, List.nodup_cons] at hnd
    obtain ⟨hx, hxs⟩ := hnd
    simp only [List.foldl_cons]
    rcases List.mem_cons.mp hf with hfx | hfm
    · subst hfx
      rw [fold_objSetV_preserves iv f.name xs
        (fun g hg hc => hx (hc ▸ List.mem_map_of_mem Field.name hg)) _]
      exact lookupVal_objSetV_self acc f.name (iv f)
    · exact ih hxs f hfm _

/-- C9: under the schema invariant that effective qualified names are
unique, the initial-value map assigns the empty string to text, textarea
and email fields, `false` to checkboxes, `undefined` to number fields,
`null` to file fields (both absent in the JS sense), and the empty
string to date, select and radio fields. -/
theorem c9_initial_values (fields : List Field) (sv : List (String × String))
    (hnd : ((getAllFields fields sv).map Field.name).Nodup)
    (f : Field) (hf : f ∈ getAllFields fields sv) :
    (f.ftype ∈ (["text", "textarea", "email", "date", "select", "radio"] : List String) →
      lookupVal (getInitialValues fields sv) f.name = some (.vStr ""))
    ∧ (f.ftype = "checkbox" →
        lookupVal (getInitialValues fields sv) f.name = some (.vBool false))
    ∧ (f.ftype = "number" →
        lookupVal (getInitialValues fields sv) f.name = some .vUndefined)
    ∧ (f.ftype = "file" →
        lookupVal (getInitialValues fields sv) f.name = some .vNull)
    ∧ ((f.ftype = "number" ∨ f.ftype = "file") →
        ∃ v, lookupVal (getInitialValues fields sv) f.name = some v ∧ isAbsent v = true) := by
  have hbase : lookupVal (getInitialValues fields sv) f.name = some (initValueFor f) :=
    fold_objSetV_lookup initValueFor (getAllFields fields sv) hnd f hf []
  refine ⟨?_, ?_, ?_, ?_, ?_⟩
  · intro hk
    rw [hbase]
    simp only [List.mem_cons, List.mem_singleton, List.not_mem_nil, or_false] at hk
    have : initValueFor f = .vStr "" := by
      rcases hk with h | h | h | h | h | h <;> simp [initValueFor, h]
    rw [this]
  · intro hk; rw [hbase]; simp [initValueFor, hk]
  · intro hk; rw [hbase]; simp [initValueFor, hk]
  · intro hk; rw [hbase]; simp [initValueFor, hk]
  · rintro (hk | hk) <;> rw [hbase] <;>
      refine ⟨initValueFor f, rfl, ?_⟩ <;> simp [initValueFor, hk, isAbsent]

/-- Witness for C9 at a concrete schema. -/
theorem c9_initial_values_witness :
    lookupVal (getInitialValues [contactMethod] []) "contact_method" = some (.vStr "") :=
  (c9_initial_values [contactMethod] [] (by decide) contactMethod
    (by rw [show getAllFields [contactMethod] [] = [contactMethod] from rfl]
        exact List.mem_singleton_self contactMethod)).1 (by decide)

/-! ## C8 — identity priority and reorder stability -/

theorem truthy_iff (o : Option String) : truthy o = true ↔ ∃ s, o = some s ∧ s ≠ "" := by
  cases o with
  | none => simp [truthy]
  | some s => simp [truthy]

theorem string_append_ne_empty (a b : String) (h : a.data ≠ []) : a ++ b ≠ "" := by
  intro hc
  have hd := congrArg String.data hc
  rw [String.data_append] at hd
  exact h (List.append_eq_nil.mp hd).1

theorem generateStableId_ne_empty (f : EditorField) (i : Nat) :
    generateStableId f i ≠ "" := by
  unfold generateStableId
  by_cases h1 : truthy f.dragId = true
  · rw [if_pos h1]
    obtain ⟨s, hs, hs0⟩ := (truthy_iff f.dragId).mp h1
    rw [hs]
    exact hs0
  · rw [if_neg h1]
    by_cases h2 : truthy f.storedId = true
    · rw [if_pos h2]
      obtain ⟨s, hs, hs0⟩ := (truthy_iff f.storedId).mp h2
      rw [hs]
      exact hs0
    · rw [if_neg h2]
      by_cases h3 : f.name ≠ ""
      · rw [if_pos h3]
        exact string_append_ne_empty "field-" f.name (by decide)
      · rw [if_neg h3]
        exact string_append_ne_empty "field-temp-" (toString i) (by decide)

theorem mem_reorderMove {α : Type} (l : List α) (src dst : Nat) (x : α)
    (hx : x ∈ reorderMove l src dst) : x ∈ l := by
  unfold reorderMove at hx
  cases hm : l.get? src with
  | none => rw [hm] at hx; exact hx
  | some moved =>
    rw [hm] at hx
    rcases List.mem_append.mp hx with h | h
    · have h1 : x ∈ l.take src ++ l.drop (src + 1) := List.take_subset _ _ h
      rcases List.mem_append.mp h1 with h2 | h2
      · exact List.take_subset _ _ h2
      · exact List.drop_subset _ _ h2
    · rcases List.mem_cons.mp h with h2 | h2
      · exact h2 ▸ List.get?_mem hm
      · have h1 : x ∈ l.take src ++ l.drop (src + 1) := List.drop_subset _ _ h2
        rcases List.mem_append.mp h1 with h3 | h3
        · exact List.take_subset _ _ h3
        · exact List.drop_subset _ _ h3

theorem enumFrom_dragEnd_map :
    ∀ (l : List EditorField) (n : Nat), (∀ g ∈ l, truthy g.dragId = true) →
    ((List.enumFrom n l).map (fun p =>
      { p.2 with
        order := p.1,
        dragId := if truthy p.2.dragId then p.2.dragId
                  else some (generateStableId p.2 p.1) })).map EditorField.dragId
      = l.map EditorField.dragId := by
  intro l
  induction l with
  | nil => intro n _; rfl
  | cons x xs ih =>
    intro n h
    simp only [List.enumFrom_cons, List.map_cons]
    rw [ih (n + 1) (fun g hg => h g (List.mem_cons_of_mem x hg))]
    have hx := h x (List.mem_cons_self x xs)
    simp [hx]

/-- C8: `generateStableId` follows the stated priority order — existing
drag identity, then persisted storage id, then non-empty name, then
positional placeholder — the preprocessing stamps every field with a
truthy identity, and a drag-reorder preserves every field's identity:
the identities of the reordered list are exactly the original identities
moved along the permutation, and the moved field sits at the destination
index. -/
theorem c8_identity_priority_and_reorder :
    (∀ (f : EditorField) (i : Nat), truthy f.dragId = true →
      generateStableId f i = f.dragId.getD "")
    ∧ (∀ (f : EditorField) (i : Nat), truthy f.dragId = false →
        truthy f.storedId = true → generateStableId f i = f.storedId.getD "")
    ∧ (∀ (f : EditorField) (i : Nat), truthy f.dragId = false →
        truthy f.storedId = false → f.name ≠ "" →
        generateStableId f i = "field-" ++ f.name)
    ∧ (∀ (f : EditorField) (i : Nat), truthy f.dragId = false →
        truthy f.storedId = false → f.name = "" →
        generateStableId f i = "field-temp-" ++ toString i)
    ∧ (∀ (fields : List EditorField), ∀ g ∈ fieldsWithStableIds fields,
        truthy g.dragId = true)
    ∧ (∀ (fields : List EditorField) (src dst : Nat),
        (∀ g ∈ fields, truthy g.dragId = true) → src ≠ dst →
        (handleDragEnd fields src dst).map EditorField.dragId
          = (reorderMove fields src dst).map EditorField.dragId)
    ∧ (∀ (fields : List EditorField) (src dst : Nat) (moved : EditorField),
        fields.get? src = some moved → dst ≤ fields.length - 1 →
        (reorderMove fields src dst).get? dst = some moved) := by
  refine ⟨?_, ?_, ?_, ?_, ?_, ?_, ?_⟩
  · intro f i h
    unfold generateStableId
    rw [if_pos h]
  · intro f i h1 h2
    unfold generateStableId
    rw [if_neg (by simp [h1]), if_pos h2]
  · intro f i h1 h2 h3
    unfold generateStableId
    rw [if_neg (by simp [h1]), if_neg (by simp [h2]), if_pos h3]
  · intro f i h1 h2 h3
    unfold generateStableId
    rw [if_neg (by simp [h1]), if_neg (by simp [h2]), if_neg (by simp [h3])]
  · intro fields g hg
    unfold fieldsWithStableIds at hg
    obtain ⟨p, _, hp⟩ := List.mem_map.mp hg
    rw [← hp]
    simp only [truthy, decide_eq_true_eq]
    exact generateStableId_ne_empty p.2 p.1
  · intro fields src dst hall hne
    unfold handleDragEnd
    rw [if_neg hne]
    have hmem : ∀ g ∈ reorderMove fields src dst, truthy g.dragId = true :=
      fun g hg => hall g (mem_reorderMove fields src dst g hg)
    exact enumFrom_dragEnd_map (reorderMove fields src dst) 0 hmem
  · intro fields src dst moved hm hdst
    unfold reorderMove
    rw [hm]
    have hsrc : src < fields.length := by
      have := List.get?_eq_some.mp hm
      exact this.1
    have hlen : (fields.take src ++ fields.drop (src + 1)).length = fields.length - 1 := by
      rw [List.length_append, List.length_take, List.length_drop]
      omega
    have htk : ((fields.take src ++ fields.drop (src + 1)).take dst).length = dst := by
      rw [List.length_take, hlen]
      omega
    rw [List.get?_append_right htk.le, htk, Nat.sub_self]
    rfl

/-- Concrete editor fields for the C8 witness. -/
def edDrag : EditorField := { dragId := some "id0", storedId := none, name := "n", order := 0 }

def edStored : EditorField := { dragId := none, storedId := some "mongo1", name := "n", order := 0 }

def edNamed : EditorField := { dragId := none, storedId := none, name := "email", order := 0 }

def edBlank : EditorField := { dragId := none, storedId := none, name := "", order := 0 }

def edP : EditorField := { dragId := some "i0", storedId := none, name := "a", order := 0 }

def edQ : EditorField := { dragId := some "i1", storedId := none, name := "b", order := 1 }

/-- Witness for C8 at concrete fields and a concrete reorder. -/
theorem c8_identity_priority_and_reorder_witness :
    generateStableId edDrag 7 = "id0"
    ∧ generateStableId edStored 7 = "mongo1"
    ∧ generateStableId edNamed 7 = "field-email"
    ∧ generateStableId edBlank 7 = "field-temp-7"
    ∧ (handleDragEnd [edP, edQ] 0 1).map EditorField.dragId
        = (reorderMove [edP, edQ] 0 1).map EditorField.dragId
    ∧ (reorderMove [edP, edQ] 0 1).get? 1 = some edP :=
  ⟨c8_identity_priority_and_reorder.1 edDrag 7 (by decide),
   c8_identity_priority_and_reorder.2.1 edStored 7 (by decide) (by decide),
   c8_identity_priority_and_reorder.2.2.1 edNamed 7 (by decide) (by decide) (by decide),
   c8_identity_priority_and_reorder.2.2.2.1 edBlank 7 (by decide) (by decide) (by decide),
   c8_identity_priority_and_reorder.2.2.2.2.2.1 [edP, edQ] 0 1
     (by intro g hg; fin_cases hg <;> decide) (by decide),
   c8_identity_priority_and_reorder.2.2.2.2.2.2 [edP, edQ] 0 1 edP (by decide) (by decide)⟩

/-! ## C10 — expansion never mutates the schema -/

theorem branch_fold_extends (sv : List (String × String)) (fobj : FieldObj) :
    ∀ (nrefs : List Nat) (st2 : Heap × List Nat),
    ∃ ext news,
      (nrefs.foldl (fun st2 nr =>
        match heapGet st2.1 nr with
        | none => st2
        | some nobj =>
          (st2.1 ++ [{ nobj with name := qualifyName fobj.name nobj.name }],
           st2.2 ++ [st2.1.length])) st2).1 = st2.1 ++ ext
      ∧ (nrefs.foldl (fun st2 nr =>
          match heapGet st2.1 nr with
          | none => st2
          | some nobj =>
            (st2.1 ++ [{ nobj with name := qualifyName fobj.name nobj.name }],
             st2.2 ++ [st2.1.length])) st2).2 = st2.2 ++ news
      ∧ ∀ x ∈ news, st2.1.length ≤ x := by
  intro nrefs
  induction nrefs with
  | nil =>
    intro st2
    exact ⟨[], [], by simp, by simp, by simp⟩
  | cons nr nrefs ih =>
    intro st2
    simp only [List.foldl_cons]
    cases hg : heapGet st2.1 nr with
    | none =>
      exact ih st2
    | some nobj =>
      obtain ⟨ext, news, h1, h2, h3⟩ :=
        ih (st2.1 ++ [{ nobj with name := qualifyName fobj.name nobj.name }],
            st2.2 ++ [st2.1.length])
      refine ⟨[{ nobj with name := qualifyName fobj.name nobj.name }] ++ ext,
        [st2.1.length] ++ news, ?_, ?_, ?_⟩
      · rw [h1, List.append_assoc]
      · rw [h2, List.append_assoc]
      · intro x hx
        rcases List.mem_append.mp hx with hx | hx
        · rw [List.mem_singleton.mp hx]
        · have := h3 x hx
          simp only [List.length_append, List.length_cons, List.length_nil] at this
          omega

theorem expandOneH_extends (sv : List (String × String)) (st : Heap × List Nat) (r : Nat) :
    ∃ ext news,
      (expandOneH sv st r).1 = st.1 ++ ext
      ∧ (expandOneH sv st r).2 = st.2 ++ news
      ∧ ∀ x ∈ news, st.1.length ≤ x := by
  unfold expandOneH
  cases hg : heapGet st.1 r with
  | none => exact ⟨[], [], by simp, by simp, by simp⟩
  | some fobj =>
    dsimp only
    by_cases hsel : fobj.ftype = "radio" ∨ fobj.ftype = "select"
    · rw [if_pos hsel]
      cases hl : lookupStr sv fobj.name with
      | none => exact ⟨[], [], by simp, by simp, by simp⟩
      | some selectedValue =>
        dsimp only
        by_cases hv : selectedValue = ""
        · rw [if_pos hv]
          exact ⟨[], [], by simp, by simp, by simp⟩
        · rw [if_neg hv]
          cases hb : branchLookupH fobj.conditionalFields selectedValue with
          | none => exact ⟨[], [], by simp, by simp, by simp⟩
          | some nrefs =>
            dsimp only
            exact branch_fold_extends sv fobj nrefs st
    · rw [if_neg hsel]
      exact ⟨[], [], by simp, by simp, by simp⟩

theorem getAllFieldsH_extends (sv : List (String × String)) :
    ∀ (tops2 : List Nat) (st : Heap × List Nat),
    ∃ ext news,
      (tops2.foldl (expandOneH sv) st).1 = st.1 ++ ext
      ∧ (tops2.foldl (expandOneH sv) st).2 = st.2 ++ news
      ∧ ∀ x ∈ news, st.1.length ≤ x := by
  intro tops2
  induction tops2 with
  | nil =>
    intro st
    exact ⟨[], [], by simp, by simp, by simp⟩
  | cons r tops2 ih =>
    intro st
    simp only [List.foldl_cons]
    obtain ⟨e1, n1, he1, hn1, hf1⟩ := expandOneH_extends sv st r
    obtain ⟨e2, n2, he2, hn2, hf2⟩ := ih (expandOneH sv st r)
    refine ⟨e1 ++ e2, n1 ++ n2, ?_, ?_, ?_⟩
    · rw [he2, he1, List.append_assoc]
    · rw [hn2, hn1, List.append_assoc]
    · intro x hx
      rcases List.mem_append.mp hx with hx | hx
      · exact hf1 x hx
      · have := hf2 x hx
        rw [he1, List.length_append] at this
        omega

/-- C10: the expansion never mutates its input.  Every original heap
address still dereferences to the same field object after expansion (in
particular the `name` stored in every `conditionalFields` entry is
untouched), and every emitted conditional field is a freshly allocated
copy: the output reference list is the original top-level references
followed only by references at or beyond the original heap bound. -/
theorem c10_expansion_no_mutation (h : Heap) (tops : List Nat)
    (sv : List (String × String)) :
    (∀ r, r < h.length → heapGet (getAllFieldsH h tops sv).1 r = heapGet h r)
    ∧ ∃ emitted,
        (getAllFieldsH h tops sv).2 = tops ++ emitted
        ∧ ∀ x ∈ emitted, h.length ≤ x := by
  obtain ⟨ext, news, he, hn, hf⟩ := getAllFieldsH_extends sv tops (h, tops)
  constructor
  · intro r hr
    unfold getAllFieldsH heapGet
    rw [show (tops.foldl (expandOneH sv) (h, tops)).1 = h ++ ext from he]
    exact List.get?_append hr
  · exact ⟨news, hn, hf⟩

/-- Concrete heap for the C10 witness: a selectable field at address 0
whose active branch references address 1. -/
def heapNested : FieldObj :=
  { name := "email_address", label := "Email Address", ftype := "email",
    required := true, options := [], validation := Validation.none0,
    conditionalFields := [] }

def heapParent : FieldObj :=
  { name := "contact_method", label := "Contact Method", ftype := "radio",
    required := true, options := ["Email", "Phone"], validation := Validation.none0,
    conditionalFields := [("Email", [1])] }

/-- Witness for C10: after expanding with the `Email` branch active, the
original nested object at address 1 — the one named inside
`conditionalFields` — is unchanged. -/
theorem c10_expansion_no_mutation_witness :
    heapGet (getAllFieldsH [heapParent, heapNested] [0]
      [("contact_method", "Email")]).1 1
      = heapGet [heapParent, heapNested] 1 :=
  (c10_expansion_no_mutation [heapParent, heapNested] [0]
    [("contact_method", "Email")]).1 1 (by decide)

/-! ## C3 — branch isolation and stale-value dropping -/

theorem string_data_inj (a b : String) (h : a.data = b.data) : a = b := by
  cases a
  cases b
  exact congrArg String.mk h

theorem qualifyName_inj_right (parent a b : String)
    (h : qualifyName parent a = qualifyName parent b) : a = b := by
  have hd := congrArg String.data h
  rw [qualifyName_data, qualifyName_data] at hd
  exact string_data_inj a b (List.append_cancel_left hd)

theorem Field.name_withName (f : Field) (n : String) : (f.withName n).name = n := by
  cases f
  rfl

/-- Structure of a member of `activeNested`: it is a renamed copy of a
field of the branch selected by a truthy selection value. -/
theorem mem_activeNested (sv : List (String × String)) (f g : Field)
    (hg : g ∈ activeNested sv f) :
    ∃ v nfs nf, lookupStr sv f.name = some v ∧ v ≠ ""
      ∧ branchLookup f.conditionalFields v = some nfs
      ∧ nf ∈ nfs ∧ g.name = qualifyName f.name nf.name := by
  unfold activeNested at hg
  by_cases hsel : f.ftype = "radio" ∨ f.ftype = "select"
  · rw [if_pos hsel] at hg
    cases hl : lookupStr sv f.name with
    | none => rw [hl] at hg; exact absurd hg (List.not_mem_nil g)
    | some v =>
      rw [hl] at hg
      dsimp only at hg
      by_cases hv : v = ""
      · rw [if_pos hv] at hg
        exact absurd hg (List.not_mem_nil g)
      · rw [if_neg hv] at hg
        cases hb : branchLookup f.conditionalFields v with
        | none => rw [hb] at hg; exact absurd hg (List.not_mem_nil g)
        | some nfs =>
          rw [hb] at hg
          dsimp only at hg
          obtain ⟨nf, hnf, heq⟩ := List.mem_map.mp hg
          exact ⟨v, nfs, nf, by simp [hl], hv, by simp [hb], hnf,
            by rw [← heq, Field.name_withName]⟩
  · rw [if_neg hsel] at hg
    exact absurd hg (List.not_mem_nil g)

theorem serializeStep_skip (ff af : List Field) (sv : List (String × String))
    (values : List (String × JsValue)) (acc : List (String × String))
    (nv : String × JsValue)
    (h : fieldExistsCheck ff af sv values nv.1 = false) :
    serializeStep ff af sv values acc nv = acc := by
  unfold serializeStep
  rw [if_neg (by simp [h])]

theorem serializeStep_names (ff af : List Field) (sv : List (String × String))
    (values : List (String × JsValue)) (acc : List (String × String))
    (nv : String × JsValue) (q : String)
    (hacc : q ∉ acc.map Prod.fst) (hq : nv.1 ≠ q) :
    q ∉ (serializeStep ff af sv values acc nv).map Prod.fst := by
  unfold serializeStep
  by_cases hc : fieldExistsCheck ff af sv values nv.1 = true
  · rw [if_pos hc]
    have happ : ∀ s : String, q ∉ (acc ++ [(nv.1, s)]).map Prod.fst := by
      intro s hmem
      rw [List.map_append] at hmem
      rcases List.mem_append.mp hmem with h | h
      · exact hacc h
      · have : q = nv.1 := by simpa using h
        exact hq this.symm
    cases hf : af.find? (fun f => decide (f.name = nv.1) || jsStartsWith nv.1 (f.name ++ "_")) with
    | none => exact happ _
    | some field =>
      dsimp only
      by_cases hft : field.ftype = "file"
      · rw [if_pos hft]
        cases nv.2 with
        | vFile fn => exact happ fn
        | vUndefined => by_cases hr : field.required = true
                        · simp only [hr, if_true]; exact happ ""
                        · simp only [hr, if_false]; exact hacc
        | vNull => by_cases hr : field.required = true
                   · simp only [hr, if_true]; exact happ ""
                   · simp only [hr, if_false]; exact hacc
        | vStr s => by_cases hr : field.required = true
                    · simp only [hr, if_true]; exact happ ""
                    · simp only [hr, if_false]; exact hacc
        | vBool b => by_cases hr : field.required = true
                     · simp only [hr, if_true]; exact happ ""
                     · simp only [hr, if_false]; exact hacc
        | vNum n => by_cases hr : field.required = true
                    · simp only [hr, if_true]; exact happ ""
                    · simp only [hr, if_false]; exact hacc
      · rw [if_neg hft]
        exact happ _
  · rw [if_neg hc]
    exact hacc

theorem serialize_fold_no_stale (ff af : List Field) (sv : List (String × String))
    (values : List (String × JsValue)) (q : String)
    (hq : fieldExistsCheck ff af sv values q = false) :
    ∀ (vs : List (String × JsValue)) (acc : List (String × String)),
      q ∉ acc.map Prod.fst →
      q ∉ ((vs.foldl (serializeStep ff af sv values) acc).map Prod.fst) := by
  intro vs
  induction vs with
  | nil => intro acc hacc; exact hacc
  | cons nv vs ih =>
    intro acc hacc
    simp only [List.foldl_cons]
    by_cases hn : nv.1 = q
    · rw [serializeStep_skip ff af sv values acc nv (by rw [hn]; exact hq)]
      exact ih acc hacc
    · exact ih _ (serializeStep_names ff af sv values acc nv q hacc hn)

/-- C3: with the selectable field `p` switched to branch `selB`, a local
name `aname` coming from a different branch of `p` contributes no
qualified name to the effective field list, and the answer serializer
emits no record under that stale qualified name even when the value map
still holds one — it is dropped silently.  The no-shadowing hypotheses
are the schema invariants (unique names, no cross-field qualified-name
collisions). -/
theorem c3_branch_isolation (fields : List Field) (p : Field) (selB aname : String)
    (sv : List (String × String)) (values : List (String × JsValue))
    (hp : p ∈ fields)
    (honly : ∀ f ∈ fields, f.name = p.name → f = p)
    (hsel : lookupStr sv p.name = some selB)
    (hA : ∃ akey nfs, akey ≠ selB
        ∧ branchLookup p.conditionalFields akey = some nfs
        ∧ aname ∈ nfs.map Field.name)
    (hAB : aname ∉ ((branchLookup p.conditionalFields selB).getD []).map Field.name)
    (htop : ∀ f ∈ fields, f.name ≠ qualifyName p.name aname)
    (hothers : ∀ f ∈ fields, f.name ≠ p.name →
        ∀ g ∈ activeNested sv f, g.name ≠ qualifyName p.name aname)
    (hserial : ∀ pf ∈ fields,
        jsStartsWith (qualifyName p.name aname) (pf.name ++ "_") = true →
        ∀ nf ∈ branchAtSelected pf sv values,
          nf.name ≠ jsReplaceFirst (qualifyName p.name aname) (pf.name ++ "_")) :
    qualifyName p.name aname ∉ (getAllFields fields sv).map Field.name
    ∧ qualifyName p.name aname ∉ (serializeAnswers fields sv values).map Prod.fst := by
  have hexp : qualifyName p.name aname ∉ (getAllFields fields sv).map Field.name := by
    intro hmem
    rw [getAllFields_eq, List.map_append] at hmem
    rcases List.mem_append.mp hmem with h | h
    · obtain ⟨f, hf, hfn⟩ := List.mem_map.mp h
      exact htop f hf hfn
    · obtain ⟨g, hgmem, hgn⟩ := List.mem_map.mp h
      obtain ⟨f, hf, hg⟩ := List.mem_flatMap.mp hgmem
      by_cases hfp : f.name = p.name
      · have hfeq : f = p := honly f hf hfp
        subst hfeq
        obtain ⟨v, nfs, nf, hv, hv0, hb, hnf, hgq⟩ := mem_activeNested sv f g hg
        rw [hsel] at hv
        have hveq : selB = v := by injection hv
        subst hveq
        have hnfn : nf.name = aname :=
          qualifyName_inj_right f.name nf.name aname (by rw [← hgq, hgn])
        apply hAB
        rw [hb]
        exact hnfn ▸ List.mem_map_of_mem Field.name hnf
      · exact hothers f hf hfp g hg hgn
  refine ⟨hexp, ?_⟩
  have hcheck : fieldExistsCheck fields (getAllFields fields sv) sv values
      (qualifyName p.name aname) = false := by
    unfold fieldExistsCheck
    rw [List.any_eq_false]
    intro f hf
    dsimp only
    by_cases hpre : jsStartsWith (qualifyName p.name aname) (f.name ++ "_") = true
    · rw [if_pos hpre]
      cases hfind : fields.find? (fun pf =>
          jsStartsWith (qualifyName p.name aname) (pf.name ++ "_")) with
      | none =>
        simp only [decide_eq_true_eq]
        intro hc
        have hfm : f.name ∈ (getAllFields fields sv).map Field.name :=
          List.mem_map_of_mem Field.name hf
        rw [hc] at hfm
        exact hexp hfm
      | some pf =>
        dsimp only
        rw [Bool.not_eq_true, List.any_eq_false]
        intro nf hnf
        simp only [decide_eq_true_eq]
        have hsat := List.find?_some hfind
        exact hserial pf (List.mem_of_find?_eq_some hfind) hsat nf hnf
    · rw [if_neg hpre]
      simp only [decide_eq_true_eq]
      intro hc
      have hfm : f.name ∈ (getAllFields fields sv).map Field.name :=
        List.mem_map_of_mem Field.name hf
      rw [hc] at hfm
      exact hexp hfm
  unfold serializeAnswers
  exact serialize_fold_no_stale fields (getAllFields fields sv) sv values
    (qualifyName p.name aname) hcheck values [] (by simp)

/-- A schema with two branches for the C3 witness. -/
def cmBoth : Field :=
  .mk "contact_method" "Contact Method" "radio" true ["Email", "Phone"]
    Validation.none0
    [("Email", [.mk "email_address" "Email Address" "email" true [] Validation.none0 []]),
     ("Phone", [.mk "phone_number" "Phone Number" "text" true [] Validation.none0 []])]

/-- Witness for C3: the selection is on branch `Phone`, the value map
still holds a value under branch `Email`'s qualified name, and that
name appears neither in the effective field list nor in the serialized
answers. -/
theorem c3_branch_isolation_witness :
    qualifyName "contact_method" "email_address"
      ∉ (getAllFields [cmBoth] [("contact_method", "Phone")]).map Field.name
    ∧ qualifyName "contact_method" "email_address"
      ∉ (serializeAnswers [cmBoth] [("contact_method", "Phone")]
          [("contact_method", .vStr "Phone"),
           ("contact_method_email_address", .vStr "ada at example"),
           ("contact_method_phone_number", .vStr "123")]).map Prod.fst :=
  c3_branch_isolation [cmBoth] cmBoth "Phone" "email_address"
    [("contact_method", "Phone")]
    [("contact_method", .vStr "Phone"),
     ("contact_method_email_address", .vStr "ada at example"),
     ("contact_method_phone_number", .vStr "123")]
    (List.mem_singleton_self cmBoth)
    (by intro f hf _; fin_cases hf; rfl)
    rfl
    ⟨"Email", [.mk "email_address" "Email Address" "email" true [] Validation.none0 []],
      by decide, rfl, by decide⟩
    (by decide)
    (by intro f hf; fin_cases hf; decide)
    (by intro f hf hne; fin_cases hf; exact absurd rfl hne)
    (by intro pf hpf
        fin_cases hpf
        decide)

end DynForm
